import Mathlib

/-
Verification development for the markdown-to-annotated-text compiler in
`crates/rich_text/src/rich_text.rs`.  The external markdown parser, the
language registry and the tokenizer are out-of-scope collaborators: they
are modelled at their interfaces (an event stream with source ranges, a
`String → Option Lang` query, and a `highlight_text` function).
Strings are modelled as `List Char` and byte offsets as `Nat`.
-/

set_option linter.unusedVariables false
set_option linter.unnecessarySimpa false

/-- Half-open range of offsets, modelling Rust `std::ops::Range<usize>`;
the field `stop` models `end` (a Lean keyword). -/
structure Range where
  start : Nat
  stop : Nat
deriving DecidableEq

/-- Modelled from the spec: the inclusive containment test of the
out-of-scope `util::RangeExt::contains_inclusive` — the inner range lies
entirely within the outer one. -/
def Range.contains_inclusive (outer inner : Range) : Prop :=
  outer.start ≤ inner.start ∧ inner.stop ≤ outer.stop

instance (outer inner : Range) : Decidable (outer.contains_inclusive inner) :=
  inferInstanceAs (Decidable (outer.start ≤ inner.start ∧ inner.stop ≤ outer.stop))

/-- Mention input (`struct Mention` in `rich_text.rs`): a source byte range
plus a self-mention flag. -/
structure Mention where
  range : Range
  is_self_mention : Bool
deriving DecidableEq

/-- Modelled from the spec: the concrete style value this core ever builds
(bold / italic / underline combination); it stands for the out-of-scope
`gpui::HighlightStyle` restricted to the three fields the core sets. -/
structure HighlightStyle where
  bold : Bool
  italic : Bool
  underline : Bool
deriving DecidableEq

/-- The all-default style, modelling `HighlightStyle::default()`. -/
def HighlightStyle.default : HighlightStyle := ⟨false, false, false⟩

/-- Annotation kinds (`enum Highlight` in `rich_text.rs`); `id` carries the
opaque syntax identifier (`HighlightId`), modelled as a natural number. -/
inductive Highlight where
  | code
  | id (hid : Nat)
  | highlight (style : HighlightStyle)
  | mention
  | selfMention
deriving DecidableEq

/-- Modelled from the spec: the external language-highlighting capability
(the out-of-scope `language::Language`); `highlight_text` returns token
ranges relative to the code string, tagged with opaque identifiers. -/
structure Lang where
  highlight_text : List Char → List (Range × Nat)

/-- The four output components built by `render_markdown_mut`: the text
buffer, the highlight list and the two parallel link tables. -/
structure Out where
  text : List Char
  highlights : List (Range × Highlight)
  link_ranges : List Range
  link_urls : List String

/-- Transient fold state of `render_markdown_mut`: the unconsumed mention
queue, the emphasis depth counters, the active link and code language, and
the list stack.  The stack keeps the innermost frame FIRST (head),
modelling the Rust `Vec` whose innermost frame is last. -/
structure FoldState where
  mentions : List Mention
  bold_depth : Int
  italic_depth : Int
  link_url : Option String
  current_language : Option Lang
  list_stack : List (Option Nat × Bool)

/-- Modelled from the spec: fenced-vs-indented code block kind
(`pulldown_cmark::CodeBlockKind`), the fenced one carrying the language
name. -/
inductive CodeBlockKind where
  | fenced (language : String)
  | indented
deriving DecidableEq

/-- Modelled from the spec: the structural tags of the out-of-scope
markdown parser that this core inspects; `other` stands for every ignored
tag. -/
inductive Tag where
  | paragraph
  | heading
  | codeBlock (kind : CodeBlockKind)
  | emphasis
  | strong
  | link (url : String)
  | list (number : Option Nat)
  | item
  | other
deriving DecidableEq

/-- Modelled from the spec: parser events; `stop` models `Event::End` and
`other` every ignored event kind.  The stream pairs each event with its
source byte range. -/
inductive Event where
  | text (s : List Char)
  | code (s : List Char)
  | start (tag : Tag)
  | stop (tag : Tag)
  | hardBreak
  | softBreak
  | other
deriving DecidableEq

/-- True when the buffer ends with a line break (`text.ends_with('\n')`). -/
def ends_with_newline (text : List Char) : Bool :=
  text.getLast? == some '\n'

/-- Loop of `render_code`: converts the tokenizer's sparse token list into
a covering annotation list; `offset` is the end of the last token handled
so far (token offsets are relative to the code string, `prev_len` is the
output-buffer offset the code string was appended at, `clen` its length). -/
def render_code_loop (prev_len clen : Nat) (offset : Nat) :
    List (Range × Nat) → List (Range × Highlight)
  | [] =>
    if offset < clen then [(⟨prev_len + offset, prev_len + clen⟩, Highlight.code)] else []
  | tok :: rest =>
    (if offset < tok.1.start then
      [(⟨prev_len + offset, prev_len + tok.1.start⟩, Highlight.code)]
    else []) ++
      (⟨prev_len + tok.1.start, prev_len + tok.1.stop⟩, Highlight.id tok.2) ::
        render_code_loop prev_len clen tok.1.stop rest

/-- Models `render_code`: append the code string verbatim and convert the
tokenizer's ranges into a covering annotation sequence. -/
def render_code (out : Out) (content : List Char) (language : Lang) : Out :=
  { out with
    text := out.text ++ content
    highlights := out.highlights ++
      render_code_loop out.text.length content.length 0 (language.highlight_text content) }

/-- Blank-line / indentation emission of `new_paragraph` once the
early-return did not trigger (`stack_len` is the list-stack depth). -/
def np_emit (text : List Char) (stack_len : Nat) (is_subsequent : Bool) : List Char :=
  let t1 :=
    if text = [] then text
    else (if ends_with_newline text then text else text ++ ['\n']) ++ ['\n']
  let t2 := t1 ++ List.replicate (2 * (stack_len - 1)) ' '
  if is_subsequent then t2 ++ [' ', ' '] else t2

/-- Models `new_paragraph`: paragraph-break handling, returning the new
buffer and the new list stack. -/
def new_paragraph (text : List Char) (list_stack : List (Option Nat × Bool)) :
    List Char × List (Option Nat × Bool) :=
  match list_stack with
  | [] => (np_emit text 0 false, [])
  | frame :: rest =>
    if frame.2 then (np_emit text (rest.length + 1) true, frame :: rest)
    else (text, (frame.1, true) :: rest)

/-- The mention annotation kind selected by the self-mention flag. -/
def mention_highlight (m : Mention) : Highlight :=
  if m.is_self_mention then Highlight.selfMention else Highlight.mention

/-- Models the mention-splicing loop at the head of the text-event arm:
pop queue mentions while the front one is inclusively contained in the
event's source range, pushing one mention annotation per popped mention. -/
def splice_mentions (prev_len : Nat) (source_range : Range) :
    List Mention → List (Range × Highlight) → List Mention × List (Range × Highlight)
  | [], highlights => ([], highlights)
  | m :: rest, highlights =>
    if source_range.contains_inclusive m.range then
      splice_mentions prev_len source_range rest
        (highlights ++
          [(⟨prev_len + m.range.start - source_range.start,
             prev_len + m.range.stop - source_range.start⟩, mention_highlight m)])
    else (m :: rest, highlights)

/-- The effective explicit style of a text run, assembled from the depth
counters and the active link exactly as the text-event arm does. -/
def effective_style (st : FoldState) : HighlightStyle :=
  { bold := decide (st.bold_depth > 0)
    italic := decide (st.italic_depth > 0)
    underline := st.link_url.isSome }

/-- The merge-or-append step on the highlight list for a styled text run
over `[prev_len, new_len)`. -/
def push_or_extend (highlights : List (Range × Highlight)) (prev_len new_len : Nat)
    (style : HighlightStyle) : List (Range × Highlight) :=
  match highlights.getLast? with
  | some last =>
    if last.1.stop = prev_len ∧ last.2 = Highlight.highlight style then
      highlights.dropLast ++ [(⟨last.1.start, new_len⟩, last.2)]
    else highlights ++ [(⟨prev_len, new_len⟩, Highlight.highlight style)]
  | none => highlights ++ [(⟨prev_len, new_len⟩, Highlight.highlight style)]

/-- The `Event::Text` arm: code delegation when a language is active;
otherwise mention splicing, verbatim append, link recording, and the
merge-or-append of the effective style. -/
def handle_text (st : FoldState) (out : Out) (t : List Char) (source_range : Range) :
    FoldState × Out :=
  let prev_len := out.text.length
  match st.current_language with
  | some language => (st, render_code out t language)
  | none =>
    let sp := splice_mentions prev_len source_range st.mentions out.highlights
    let text' := out.text ++ t
    let style := effective_style st
    let link_ranges' :=
      match st.link_url with
      | some _ => out.link_ranges ++ [⟨prev_len, text'.length⟩]
      | none => out.link_ranges
    let link_urls' :=
      match st.link_url with
      | some url => out.link_urls ++ [url]
      | none => out.link_urls
    let highlights' :=
      if style = HighlightStyle.default then sp.2
      else push_or_extend sp.2 prev_len text'.length style
    ({ st with mentions := sp.1 },
     { text := text', highlights := highlights',
       link_ranges := link_ranges', link_urls := link_urls' })

/-- The `Event::Code` arm: verbatim append; an underline annotation plus a
link-table entry exactly when a link is active. -/
def handle_code_event (st : FoldState) (out : Out) (t : List Char) : Out :=
  let prev_len := out.text.length
  let text' := out.text ++ t
  let highlights' :=
    match st.link_url with
    | some _ =>
      out.highlights ++
        [(⟨prev_len, text'.length⟩, Highlight.highlight ⟨false, false, true⟩)]
    | none => out.highlights
  let link_ranges' :=
    match st.link_url with
    | some _ => out.link_ranges ++ [⟨prev_len, text'.length⟩]
    | none => out.link_ranges
  let link_urls' :=
    match st.link_url with
    | some url => out.link_urls ++ [url]
    | none => out.link_urls
  { text := text', highlights := highlights',
    link_ranges := link_ranges', link_urls := link_urls' }

/-- Conditional single trailing line break before a list-item marker
(`if !text.is_empty() && !text.ends_with(nl) { text.push(nl) }`). -/
def ensure_trailing_newline (text : List Char) : List Char :=
  if text ≠ [] ∧ ends_with_newline text = false then text ++ ['\n'] else text

/-- The `Tag::Item` start arm: conditional line break, indentation, then
the ordered or unordered item marker; a no-op on an empty list stack. -/
def handle_item (st : FoldState) (out : Out) : FoldState × Out :=
  match st.list_stack with
  | [] => (st, out)
  | frame :: rest =>
    let indented := ensure_trailing_newline out.text ++
      List.replicate (2 * ((frame :: rest).length - 1)) ' '
    match frame.1 with
    | some number =>
      ({ st with list_stack := (some (number + 1), false) :: rest },
       { out with text := indented ++ (toString number ++ ". ").toList })
    | none =>
      ({ st with list_stack := (none, false) :: rest },
       { out with text := indented ++ ['-', ' '] })

/-- Dispatch for `Event::Start(tag)`. -/
def handle_start (registry : String → Option Lang) (language : Option Lang)
    (st : FoldState) (out : Out) : Tag → FoldState × Out
  | Tag.paragraph =>
    let np := new_paragraph out.text st.list_stack
    ({ st with list_stack := np.2 }, { out with text := np.1 })
  | Tag.heading =>
    let np := new_paragraph out.text st.list_stack
    ({ st with list_stack := np.2, bold_depth := st.bold_depth + 1 },
     { out with text := np.1 })
  | Tag.codeBlock kind =>
    let np := new_paragraph out.text st.list_stack
    let lang :=
      match kind with
      | CodeBlockKind.fenced name => registry name
      | CodeBlockKind.indented => language
    ({ st with list_stack := np.2, current_language := lang },
     { out with text := np.1 })
  | Tag.emphasis => ({ st with italic_depth := st.italic_depth + 1 }, out)
  | Tag.strong => ({ st with bold_depth := st.bold_depth + 1 }, out)
  | Tag.link url => ({ st with link_url := some url }, out)
  | Tag.list number => ({ st with list_stack := (number, false) :: st.list_stack }, out)
  | Tag.item => handle_item st out
  | Tag.other => (st, out)

/-- Dispatch for `Event::End(tag)`. -/
def handle_stop (st : FoldState) (out : Out) : Tag → FoldState × Out
  | Tag.heading => ({ st with bold_depth := st.bold_depth - 1 }, out)
  | Tag.codeBlock _ => ({ st with current_language := none }, out)
  | Tag.emphasis => ({ st with italic_depth := st.italic_depth - 1 }, out)
  | Tag.strong => ({ st with bold_depth := st.bold_depth - 1 }, out)
  | Tag.link _ => ({ st with link_url := none }, out)
  | Tag.list _ => ({ st with list_stack := st.list_stack.tail }, out)
  | _ => (st, out)

/-- One iteration of the event loop of `render_markdown_mut`. -/
def process_event (registry : String → Option Lang) (language : Option Lang)
    (st : FoldState) (out : Out) (event : Event) (source_range : Range) :
    FoldState × Out :=
  match event with
  | Event.text t => handle_text st out t source_range
  | Event.code t => (st, handle_code_event st out t)
  | Event.start tag => handle_start registry language st out tag
  | Event.stop tag => handle_stop st out tag
  | Event.hardBreak => (st, { out with text := out.text ++ ['\n'] })
  | Event.softBreak => (st, { out with text := out.text ++ ['\n'] })
  | Event.other => (st, out)

/-- Models `render_markdown_mut` as a fold over the event stream emitted by
the out-of-scope parser, each event paired with its source range. -/
def render_markdown_mut (registry : String → Option Lang) (language : Option Lang) :
    List (Event × Range) → FoldState → Out → FoldState × Out
  | [], st, out => (st, out)
  | ev :: rest, st, out =>
    let p := process_event registry language st out ev.1 ev.2
    render_markdown_mut registry language rest p.1 p.2

/-- Fresh fold state for a `render_markdown` invocation. -/
def init_state (mentions : List Mention) : FoldState :=
  { mentions := mentions, bold_depth := 0, italic_depth := 0,
    link_url := none, current_language := none, list_stack := [] }

/-- The empty output document. -/
def empty_out : Out :=
  { text := [], highlights := [], link_ranges := [], link_urls := [] }

/-- Models `text.truncate(text.trim_end().len())`: drop trailing whitespace
characters from the buffer. -/
def trim_end_list (text : List Char) : List Char :=
  (text.reverse.dropWhile Char.isWhitespace).reverse

/-- Models `render_markdown`: run the fold from fresh state and trim
trailing whitespace from the final text only. -/
def render_markdown (events : List (Event × Range)) (mentions : List Mention)
    (registry : String → Option Lang) (language : Option Lang) : Out :=
  let out := (render_markdown_mut registry language events (init_state mentions) empty_out).2
  { out with text := trim_end_list out.text }

/-- Well-formed, ascending, pairwise non-overlapping highlight ranges, all
starting at or after `lo`. -/
def hl_chain (lo : Nat) : List (Range × Highlight) → Prop
  | [] => True
  | p :: rest => lo ≤ p.1.start ∧ p.1.start ≤ p.1.stop ∧ hl_chain p.1.stop rest

instance hl_chain_decidable : (lo : Nat) → (hs : List (Range × Highlight)) →
    Decidable (hl_chain lo hs)
  | _, [] => Decidable.isTrue trivial
  | lo, p :: rest =>
    have : Decidable (hl_chain p.1.stop rest) := hl_chain_decidable p.1.stop rest
    inferInstanceAs (Decidable (lo ≤ p.1.start ∧ p.1.start ≤ p.1.stop ∧ hl_chain p.1.stop rest))

/-- Every highlight range ends at or before `bound`. -/
def hl_ub (hs : List (Range × Highlight)) (bound : Nat) : Prop :=
  ∀ p ∈ hs, p.1.stop ≤ bound

/-- Contract of the external tokenizer's output (spec §1, collaborator (b)):
ascending, non-overlapping, well-formed ranges within the code string,
threaded through the running `offset`. -/
def tokens_ok (offset clen : Nat) : List (Range × Nat) → Prop
  | [] => True
  | tok :: rest =>
    offset ≤ tok.1.start ∧ tok.1.start ≤ tok.1.stop ∧ tok.1.stop ≤ clen ∧
      tokens_ok tok.1.stop clen rest

instance tokens_ok_decidable : (offset clen : Nat) → (ts : List (Range × Nat)) →
    Decidable (tokens_ok offset clen ts)
  | _, _, [] => Decidable.isTrue trivial
  | offset, clen, tok :: rest =>
    have : Decidable (tokens_ok tok.1.stop clen rest) :=
      tokens_ok_decidable tok.1.stop clen rest
    inferInstanceAs (Decidable (offset ≤ tok.1.start ∧ tok.1.start ≤ tok.1.stop ∧
      tok.1.stop ≤ clen ∧ tokens_ok tok.1.stop clen rest))

/-- A language whose tokenizer always satisfies the token contract. -/
def tok_wf (l : Lang) : Prop :=
  ∀ content : List Char, tokens_ok 0 content.length (l.highlight_text content)

/-- Exact gap-free, overlap-free coverage of `[a, b)` by consecutive
annotation ranges. -/
def covers_from (a b : Nat) : List (Range × Highlight) → Prop
  | [] => a = b
  | p :: rest => p.1.start = a ∧ a ≤ p.1.stop ∧ covers_from p.1.stop b rest

/-- True on the two mention annotation kinds. -/
def is_mention_kind : Highlight → Bool
  | Highlight.mention => true
  | Highlight.selfMention => true
  | _ => false

/-- Number of mention / self-mention annotations in a highlight list. -/
def mention_count (hs : List (Range × Highlight)) : Nat :=
  (hs.filter fun p => is_mention_kind p.2).length

/-- True on text events. -/
def is_text : Event → Bool
  | Event.text _ => true
  | _ => false

instance (hs : List (Range × Highlight)) (bound : Nat) : Decidable (hl_ub hs bound) :=
  inferInstanceAs (Decidable (∀ p ∈ hs, p.1.stop ≤ bound))

theorem splice_mentions_nil (prev_len : Nat) (source_range : Range)
    (hs : List (Range × Highlight)) :
    splice_mentions prev_len source_range [] hs = ([], hs) := rfl

theorem process_event_link_len (registry : String → Option Lang) (language : Option Lang)
    (st : FoldState) (out : Out) (event : Event) (source_range : Range)
    (h : out.link_ranges.length = out.link_urls.length) :
    (process_event registry language st out event source_range).2.link_ranges.length =
      (process_event registry language st out event source_range).2.link_urls.length := by
  cases event with
  | text t =>
    simp only [process_event, handle_text]
    cases st.current_language with
    | some l => simpa [render_code]
    | none =>
      cases st.link_url with
      | some url => simp [h]
      | none => simpa
  | code t =>
    simp only [process_event, handle_code_event]
    cases st.link_url with
    | some url => simp [h]
    | none => simpa
  | start tag =>
    cases tag <;> simp only [process_event, handle_start, handle_item] <;>
      first
        | simpa
        | (cases hls : st.list_stack with
            | nil => simpa
            | cons frame rest =>
              obtain ⟨num, b⟩ := frame
              cases num <;> simpa)
  | stop tag => cases tag <;> simpa [process_event, handle_stop]
  | hardBreak => simpa [process_event]
  | softBreak => simpa [process_event]
  | other => simpa [process_event]

theorem render_markdown_mut_link_len (registry : String → Option Lang)
    (language : Option Lang) (events : List (Event × Range)) :
    ∀ (st : FoldState) (out : Out),
      out.link_ranges.length = out.link_urls.length →
      (render_markdown_mut registry language events st out).2.link_ranges.length =
        (render_markdown_mut registry language events st out).2.link_urls.length := by
  induction events with
  | nil => intro st out h; simpa [render_markdown_mut]
  | cons ev rest ih =>
    intro st out h
    simp only [render_markdown_mut]
    exact ih _ _ (process_event_link_len registry language st out ev.1 ev.2 h)

/-- Claim C5: `link_ranges` and `link_urls` always have equal length: the
equality is preserved by every single event step (so it holds at every
intermediate state of construction), and it holds for the final document
produced by `render_markdown`. -/
theorem C5_link_tables (registry : String → Option Lang) (language : Option Lang)
    (events : List (Event × Range)) (mentions : List Mention)
    (st : FoldState) (out : Out) (event : Event) (source_range : Range)
    (h : out.link_ranges.length = out.link_urls.length) :
    ((process_event registry language st out event source_range).2.link_ranges.length =
      (process_event registry language st out event source_range).2.link_urls.length) ∧
    ((render_markdown_mut registry language events st out).2.link_ranges.length =
      (render_markdown_mut registry language events st out).2.link_urls.length) ∧
    ((render_markdown events mentions registry language).link_ranges.length =
      (render_markdown events mentions registry language).link_urls.length) := by
  refine ⟨process_event_link_len registry language st out event source_range h,
    render_markdown_mut_link_len registry language events st out h, ?_⟩
  simpa [render_markdown] using
    render_markdown_mut_link_len registry language events (init_state mentions) empty_out rfl

/-- Witness for C5 at a concrete input: a link start followed by a code
span, which appends one entry to each link table. -/
theorem C5_witness :
    (empty_out.link_ranges.length = empty_out.link_urls.length) ∧
    ((render_markdown
        [(Event.start (Tag.link "u"), ⟨0, 8⟩), (Event.code ("ab".toList), ⟨1, 5⟩)]
        [] (fun _ => none) none).link_ranges.length =
      (render_markdown
        [(Event.start (Tag.link "u"), ⟨0, 8⟩), (Event.code ("ab".toList), ⟨1, 5⟩)]
        [] (fun _ => none) none).link_urls.length) :=
  ⟨rfl,
    (C5_link_tables (fun _ => none) none
      [(Event.start (Tag.link "u"), ⟨0, 8⟩), (Event.code ("ab".toList), ⟨1, 5⟩)]
      [] (init_state []) empty_out Event.other ⟨0, 0⟩ rfl).2.2⟩

/-- Claim C7: the Paragraph-Break Procedure.  With an innermost list frame
that has not yet emitted content, the frame is marked and nothing is
appended; otherwise a non-empty buffer gets exactly one trailing line
break (appended only when missing) plus a second one (the blank separator
line), followed by two spaces per list-nesting level beyond the outermost,
plus two additional spaces for a later paragraph inside a list item. -/
theorem C7_new_paragraph (text : List Char) (num : Option Nat)
    (rest : List (Option Nat × Bool)) :
    (new_paragraph text ((num, false) :: rest) = (text, (num, true) :: rest)) ∧
    (new_paragraph text [] =
      ((if text = [] then text
        else (if ends_with_newline text then text else text ++ ['\n']) ++ ['\n']), [])) ∧
    (new_paragraph text ((num, true) :: rest) =
      ((if text = [] then text
        else (if ends_with_newline text then text else text ++ ['\n']) ++ ['\n']) ++
          List.replicate (2 * rest.length) ' ' ++ [' ', ' '],
       (num, true) :: rest)) := by
  refine ⟨?_, ?_, ?_⟩ <;> simp [new_paragraph, np_emit]

/-- Witness for C7 at concrete inputs: a fresh frame swallows the break; a
frame with content gets a blank line plus indentation. -/
theorem C7_witness :
    (new_paragraph ("ab".toList) [(some 1, false)] = ("ab".toList, [(some 1, true)])) ∧
    (new_paragraph ("ab".toList) [] = ("ab\n\n".toList, [])) ∧
    (new_paragraph ("ab".toList) [(none, true), (none, true)] =
      ("ab\n\n  ".toList ++ [' ', ' '], [(none, true), (none, true)])) := by
  refine ⟨(C7_new_paragraph ("ab".toList) (some 1) []).1, ?_, ?_⟩
  · have h := (C7_new_paragraph ("ab".toList) none []).2.1
    simpa using h
  · have h := (C7_new_paragraph ("ab".toList) none [(none, true)]).2.2
    simpa using h

/-- Claim C6: item-start with a non-empty list stack appends one line break
exactly when the buffer is non-empty and does not already end with one,
then `(depth-1)*2` spaces of indentation, then `"{counter}. "` (with the
counter incremented by one, having started at the list's declared start
number pushed by the list-start event) for an ordered frame, or the
literal `"- "` for an unordered frame. -/
theorem C6_item_marker (registry : String → Option Lang) (language : Option Lang)
    (st : FoldState) (out : Out) (source_range : Range)
    (num : Option Nat) (b : Bool) (rest : List (Option Nat × Bool))
    (h : st.list_stack = (num, b) :: rest) :
    (∀ n, num = some n →
      process_event registry language st out (Event.start Tag.item) source_range =
        ({ st with list_stack := (some (n + 1), false) :: rest },
         { out with text := ensure_trailing_newline out.text ++
             List.replicate (2 * rest.length) ' ' ++ (toString n ++ ". ").toList })) ∧
    (num = none →
      process_event registry language st out (Event.start Tag.item) source_range =
        ({ st with list_stack := (none, false) :: rest },
         { out with text := ensure_trailing_newline out.text ++
             List.replicate (2 * rest.length) ' ' ++ ['-', ' '] })) ∧
    (∀ n0 : Option Nat,
      process_event registry language st out (Event.start (Tag.list n0)) source_range =
        ({ st with list_stack := (n0, false) :: st.list_stack }, out)) := by
  refine ⟨?_, ?_, ?_⟩
  · intro n hn
    subst hn
    simp [process_event, handle_start, handle_item, h, List.append_assoc]
  · intro hn
    subst hn
    simp [process_event, handle_start, handle_item, h, List.append_assoc]
  · intro n0
    simp [process_event, handle_start]

/-- Witness for C6: an ordered frame with counter 3 at depth 2 emits the
newline, two spaces and `"3. "`, and the counter becomes 4. -/
theorem C6_witness :
    ({ mentions := [], bold_depth := 0, italic_depth := 0, link_url := none,
       current_language := none,
       list_stack := [(some 3, true), (none, true)] } : FoldState).list_stack =
        (some 3, true) :: [(none, true)] ∧
    process_event (fun _ => none) none
      { mentions := [], bold_depth := 0, italic_depth := 0, link_url := none,
        current_language := none, list_stack := [(some 3, true), (none, true)] }
      { text := "ab".toList, highlights := [], link_ranges := [], link_urls := [] }
      (Event.start Tag.item) ⟨0, 5⟩ =
      ({ mentions := [], bold_depth := 0, italic_depth := 0, link_url := none,
         current_language := none, list_stack := [(some 4, false), (none, true)] },
       { text := "ab\n  3. ".toList, highlights := [], link_ranges := [],
         link_urls := [] }) := by
  refine ⟨rfl, ?_⟩
  have h := (C6_item_marker (fun _ => none) none
    { mentions := [], bold_depth := 0, italic_depth := 0, link_url := none,
      current_language := none, list_stack := [(some 3, true), (none, true)] }
    { text := "ab".toList, highlights := [], link_ranges := [], link_urls := [] }
    ⟨0, 5⟩ (some 3) true [(none, true)] rfl).1 3 rfl
  rw [h]
  rfl

theorem mention_highlight_kind (m : Mention) :
    is_mention_kind (mention_highlight m) = true := by
  cases h : m.is_self_mention <;> simp [mention_highlight, is_mention_kind, h]

theorem splice_mentions_mem (prev_len : Nat) (source_range : Range) :
    ∀ (q : List Mention) (hs : List (Range × Highlight)) (p : Range × Highlight),
      p ∈ (splice_mentions prev_len source_range q hs).2 →
      p ∈ hs ∨ is_mention_kind p.2 = true := by
  intro q
  induction q with
  | nil => intro hs p hp; exact Or.inl hp
  | cons m rest ih =>
    intro hs p hp
    by_cases hc : source_range.contains_inclusive m.range
    · simp only [splice_mentions, if_pos hc] at hp
      rcases ih _ p hp with h | h
      · rcases List.mem_append.mp h with h' | h'
        · exact Or.inl h'
        · right
          rw [List.mem_singleton.mp h']
          exact mention_highlight_kind m
      · exact Or.inr h
    · simp only [splice_mentions, if_neg hc] at hp
      exact Or.inl hp

theorem push_or_extend_mem (hs : List (Range × Highlight)) (a b : Nat)
    (s : HighlightStyle) (p : Range × Highlight) (hp : p ∈ push_or_extend hs a b s) :
    p ∈ hs ∨ p.2 = Highlight.highlight s := by
  rcases List.eq_nil_or_concat hs with rfl | ⟨ys, y, rfl⟩
  · simp only [push_or_extend, List.getLast?_nil, List.nil_append,
      List.mem_singleton] at hp
    right; rw [hp]
  · simp only [List.concat_eq_append] at hp ⊢
    simp only [push_or_extend, List.getLast?_concat, List.dropLast_concat] at hp
    split at hp
    · rename_i hcond
      rcases List.mem_append.mp hp with h | h
      · exact Or.inl (List.mem_append_left _ h)
      · right; rw [List.mem_singleton.mp h]; exact hcond.2
    · rcases List.mem_append.mp hp with h | h
      · exact Or.inl h
      · right; rw [List.mem_singleton.mp h]

/-- Claim C9: a fenced code block whose language name the registry cannot
resolve leaves `current_language` unset and changes no highlights; an
indented code block uses the caller-supplied default language; and a text
event processed with no active language appends the text as plain text,
adding no generic-code and no syntax-id annotation. -/
theorem C9_language_fallback (registry : String → Option Lang) (language : Option Lang)
    (st : FoldState) (out : Out) (source_range : Range) (name : String) (t : List Char)
    (hname : registry name = none) (hlang : st.current_language = none) :
    ((process_event registry language st out
        (Event.start (Tag.codeBlock (CodeBlockKind.fenced name))) source_range).1.current_language =
          none ∧
     (process_event registry language st out
        (Event.start (Tag.codeBlock (CodeBlockKind.fenced name))) source_range).2.highlights =
          out.highlights) ∧
    ((process_event registry language st out
        (Event.start (Tag.codeBlock CodeBlockKind.indented)) source_range).1.current_language =
          language ∧
     (process_event registry language st out
        (Event.start (Tag.codeBlock CodeBlockKind.indented)) source_range).2.highlights =
          out.highlights) ∧
    ((process_event registry language st out (Event.text t) source_range).2.text =
        out.text ++ t ∧
     ∀ p ∈ (process_event registry language st out (Event.text t) source_range).2.highlights,
       p ∈ out.highlights ∨ (p.2 ≠ Highlight.code ∧ ∀ hid, p.2 ≠ Highlight.id hid)) := by
  refine ⟨⟨?_, ?_⟩, ⟨?_, ?_⟩, ?_, ?_⟩
  · simp [process_event, handle_start, hname]
  · simp [process_event, handle_start]
  · simp [process_event, handle_start]
  · simp [process_event, handle_start]
  · simp [process_event, handle_text, hlang]
  · intro p hp
    simp only [process_event, handle_text, hlang] at hp
    have kinds : p ∈ out.highlights ∨ is_mention_kind p.2 = true ∨
        ∃ s, p.2 = Highlight.highlight s := by
      split at hp
      · rcases splice_mentions_mem _ _ _ _ _ hp with h | h
        · exact Or.inl h
        · exact Or.inr (Or.inl h)
      · rcases push_or_extend_mem _ _ _ _ _ hp with h | h
        · rcases splice_mentions_mem _ _ _ _ _ h with h' | h'
          · exact Or.inl h'
          · exact Or.inr (Or.inl h')
        · exact Or.inr (Or.inr ⟨_, h⟩)
    rcases kinds with h | h | ⟨s, h⟩
    · exact Or.inl h
    · right
      cases hk : p.2 <;> rw [hk] at h <;> simp [is_mention_kind] at h <;> simp
    · right
      rw [h]
      simp

/-- Witness for C9: an unresolvable fenced block followed by plain text. -/
theorem C9_witness :
    ((fun _ => (none : Option Lang)) "rust" = none ∧
      ({ mentions := [], bold_depth := 0, italic_depth := 0, link_url := none,
         current_language := none, list_stack := [] } : FoldState).current_language = none) ∧
    (process_event (fun _ => none) none
        { mentions := [], bold_depth := 0, italic_depth := 0, link_url := none,
          current_language := none, list_stack := [] }
        empty_out (Event.start (Tag.codeBlock (CodeBlockKind.fenced "rust"))) ⟨0, 9⟩).1.current_language =
      none ∧
    (process_event (fun _ => none) none
        { mentions := [], bold_depth := 0, italic_depth := 0, link_url := none,
          current_language := none, list_stack := [] }
        empty_out (Event.text ("hi".toList)) ⟨0, 2⟩).2.text = empty_out.text ++ "hi".toList := by
  have h := C9_language_fallback (fun _ => none) none
    { mentions := [], bold_depth := 0, italic_depth := 0, link_url := none,
      current_language := none, list_stack := [] }
    empty_out ⟨0, 2⟩ "rust" ("hi".toList) rfl rfl
  exact ⟨⟨rfl, rfl⟩, h.1.1, h.2.2.1⟩

theorem handle_text_simple (st : FoldState) (out : Out) (t : List Char)
    (source_range : Range) (hlang : st.current_language = none)
    (hm : st.mentions = []) :
    handle_text st out t source_range =
      ({ st with mentions := [] },
       { text := out.text ++ t,
         highlights :=
           if effective_style st = HighlightStyle.default then out.highlights
           else push_or_extend out.highlights out.text.length (out.text ++ t).length
             (effective_style st),
         link_ranges :=
           match st.link_url with
           | some _ => out.link_ranges ++ [⟨out.text.length, (out.text ++ t).length⟩]
           | none => out.link_ranges,
         link_urls :=
           match st.link_url with
           | some url => out.link_urls ++ [url]
           | none => out.link_urls }) := by
  simp [handle_text, hlang, hm, splice_mentions_nil]

theorem push_or_extend_getLast (hs : List (Range × Highlight)) (a b : Nat)
    (s : HighlightStyle) :
    ∃ x, (push_or_extend hs a b s).getLast? =
      some (⟨x, b⟩, Highlight.highlight s) := by
  rcases List.eq_nil_or_concat hs with rfl | ⟨ys, y, rfl⟩
  · exact ⟨a, by simp [push_or_extend]⟩
  · simp only [List.concat_eq_append, push_or_extend, List.getLast?_concat,
      List.dropLast_concat]
    split
    · rename_i hcond
      exact ⟨y.1.start, by rw [List.getLast?_concat, hcond.2]⟩
    · exact ⟨a, by rw [List.append_assoc, List.getLast?_append_of_ne_nil] <;> simp⟩

theorem push_or_extend_length_le (hs : List (Range × Highlight)) (a b : Nat)
    (s : HighlightStyle) :
    (push_or_extend hs a b s).length ≤ hs.length + 1 := by
  rcases List.eq_nil_or_concat hs with rfl | ⟨ys, y, rfl⟩
  · simp [push_or_extend]
  · simp only [List.concat_eq_append, push_or_extend, List.getLast?_concat,
      List.dropLast_concat]
    split <;> simp [Nat.le_succ_of_le]

theorem push_or_extend_length_merge (hs : List (Range × Highlight)) (a b : Nat)
    (s : HighlightStyle) (y : Range × Highlight) (hl : hs.getLast? = some y)
    (h1 : y.1.stop = a) (h2 : y.2 = Highlight.highlight s) :
    (push_or_extend hs a b s).length = hs.length := by
  rcases List.eq_nil_or_concat hs with rfl | ⟨ys, y', rfl⟩
  · simp at hl
  · simp only [List.concat_eq_append, List.getLast?_concat, Option.some_inj] at hl
    subst hl
    simp only [List.concat_eq_append, push_or_extend, List.getLast?_concat,
      List.dropLast_concat, if_pos (And.intro h1 h2)]
    simp

/-- Claim C3: a text run with a non-default effective style merges into the
immediately preceding highlight entry exactly when that entry is an
explicit-style annotation with an identical style value ending at the new
span's start: the entry is extended (same list length) instead of a new
one being appended; consequently two adjacent text runs with identical
explicit style and contiguous offsets produce at most one new highlight
entry between them. -/
theorem C3_merge (registry : String → Option Lang) (language : Option Lang)
    (st : FoldState) (out : Out) (t1 t2 : List Char) (r1 r2 : Range)
    (rng : Range) (s : HighlightStyle)
    (hlang : st.current_language = none) (hm : st.mentions = [])
    (hnd : effective_style st ≠ HighlightStyle.default) :
    ((out.highlights.getLast? = some (rng, Highlight.highlight s) →
      rng.stop = out.text.length → s = effective_style st →
      (process_event registry language st out (Event.text t1) r1).2.highlights =
        out.highlights.dropLast ++
          [(⟨rng.start, out.text.length + t1.length⟩, Highlight.highlight s)] ∧
      (process_event registry language st out (Event.text t1) r1).2.highlights.length =
        out.highlights.length) ∧
     (process_event registry language
         (process_event registry language st out (Event.text t1) r1).1
         (process_event registry language st out (Event.text t1) r1).2
         (Event.text t2) r2).2.highlights.length ≤ out.highlights.length + 1) := by
  have e1 := handle_text_simple st out t1 r1 hlang hm
  have hst1lang : ({ st with mentions := [] } : FoldState).current_language = none := hlang
  have hst1m : ({ st with mentions := [] } : FoldState).mentions = [] := rfl
  have hstyle1 : effective_style ({ st with mentions := [] } : FoldState) =
      effective_style st := rfl
  constructor
  · intro hl hstop hs
    simp only [process_event, e1, if_neg hnd]
    have hcond : (rng, Highlight.highlight s).1.stop = out.text.length ∧
        (rng, Highlight.highlight s).2 = Highlight.highlight (effective_style st) := by
      exact ⟨hstop, by rw [← hs]⟩
    constructor
    · simp only [push_or_extend, hl, if_pos hcond, List.length_append]
    · rw [push_or_extend_length_merge out.highlights out.text.length
        (out.text ++ t1).length (effective_style st) (rng, Highlight.highlight s) hl
        hstop (by rw [hs])]
  · simp only [process_event, e1, if_neg hnd]
    set h1 := push_or_extend out.highlights out.text.length (out.text ++ t1).length
      (effective_style st) with hh1
    have e2 := handle_text_simple { st with mentions := [] }
      { text := out.text ++ t1, highlights := h1,
        link_ranges :=
          match st.link_url with
          | some _ => out.link_ranges ++ [⟨out.text.length, (out.text ++ t1).length⟩]
          | none => out.link_ranges,
        link_urls :=
          match st.link_url with
          | some url => out.link_urls ++ [url]
          | none => out.link_urls } t2 r2 hst1lang hst1m
    rw [e2]
    simp only [hstyle1, if_neg hnd]
    obtain ⟨x, hx⟩ := push_or_extend_getLast out.highlights out.text.length
      (out.text ++ t1).length (effective_style st)
    rw [push_or_extend_length_merge h1 (out.text ++ t1).length _ (effective_style st)
      (⟨x, (out.text ++ t1).length⟩, Highlight.highlight (effective_style st))
      (hh1 ▸ hx) rfl rfl]
    exact push_or_extend_length_le out.highlights out.text.length
      (out.text ++ t1).length (effective_style st)

/-- Witness for C3: a bold run `"bold"` followed by the contiguous bold run
`" te"`; the existing entry `[0,4)` is extended to `[0,7)` and the list
keeps length one. -/
theorem C3_witness :
    effective_style
        { mentions := [], bold_depth := 1, italic_depth := 0,
          link_url := none, current_language := none, list_stack := [] } ≠
      HighlightStyle.default ∧
    (process_event (fun _ => none) none
        { mentions := [], bold_depth := 1, italic_depth := 0, link_url := none,
          current_language := none, list_stack := [] }
        { text := "bold".toList,
          highlights := [(⟨0, 4⟩, Highlight.highlight ⟨true, false, false⟩)],
          link_ranges := [], link_urls := [] }
        (Event.text (" te".toList)) ⟨0, 0⟩).2.highlights =
      [(⟨0, 7⟩, Highlight.highlight ⟨true, false, false⟩)] := by
  refine ⟨by decide, ?_⟩
  have h := ((C3_merge (fun _ => none) none
    { mentions := [], bold_depth := 1, italic_depth := 0, link_url := none,
      current_language := none, list_stack := [] }
    { text := "bold".toList,
      highlights := [(⟨0, 4⟩, Highlight.highlight ⟨true, false, false⟩)],
      link_ranges := [], link_urls := [] }
    (" te".toList) [] ⟨0, 0⟩ ⟨0, 0⟩ ⟨0, 4⟩ ⟨true, false, false⟩
    rfl rfl (by decide)).1 rfl rfl (by decide)).1
  rw [h]
  rfl

/-- Claim C8 (amended): an inline code-span event appends its content
verbatim with no transform and changes no fold state; exactly when a link
is active it pushes one underline explicit-style annotation over the
appended span together with one entry in each link table; the push is
unconditional (never produced by merging with the preceding entry,
whatever that entry is).  The original claim's final part is false: a
following styled text run can extend this annotation (see the
counterexample). -/
theorem C8_code_span (registry : String → Option Lang) (language : Option Lang)
    (st : FoldState) (out : Out) (t : List Char) (url : String) (source_range : Range) :
    ((process_event registry language st out (Event.code t) source_range).1 = st ∧
     (process_event registry language st out (Event.code t) source_range).2.text =
       out.text ++ t) ∧
    (st.link_url = some url →
      (process_event registry language st out (Event.code t) source_range).2.highlights =
        out.highlights ++
          [(⟨out.text.length, out.text.length + t.length⟩,
            Highlight.highlight ⟨false, false, true⟩)] ∧
      (process_event registry language st out (Event.code t) source_range).2.link_ranges =
        out.link_ranges ++ [⟨out.text.length, out.text.length + t.length⟩] ∧
      (process_event registry language st out (Event.code t) source_range).2.link_urls =
        out.link_urls ++ [url]) ∧
    (st.link_url = none →
      (process_event registry language st out (Event.code t) source_range).2.highlights =
        out.highlights ∧
      (process_event registry language st out (Event.code t) source_range).2.link_ranges =
        out.link_ranges ∧
      (process_event registry language st out (Event.code t) source_range).2.link_urls =
        out.link_urls) := by
  refine ⟨⟨rfl, by simp [process_event, handle_code_event]⟩, ?_, ?_⟩
  · intro h
    refine ⟨?_, ?_, ?_⟩ <;> simp [process_event, handle_code_event, h]
  · intro h
    refine ⟨?_, ?_, ?_⟩ <;> simp [process_event, handle_code_event, h]

/-- Counterexample to C8 as stated: inside a link, the inline code span
`"ab"` emits an underline annotation over `[0,2)`, and the following text
run `"cd"` (whose effective style is the identical underline-only style,
contiguous at offset 2) EXTENDS that annotation to `[0,4)`: the final
document holds a single merged entry, so the code span's annotation is a
merge candidate with a neighboring run, contradicting the claim. -/
theorem C8_counterexample :
    (render_markdown
        [(Event.start (Tag.link "u"), ⟨0, 10⟩), (Event.code ("ab".toList), ⟨1, 5⟩),
         (Event.text ("cd".toList), ⟨5, 7⟩), (Event.stop (Tag.link "u"), ⟨0, 10⟩)]
        [] (fun _ => none) none).highlights =
      [(⟨0, 4⟩, Highlight.highlight ⟨false, false, true⟩)] := by
  decide

/-- Witness for C8 at a concrete input: a code span with an active link
appends the text and pushes the underline annotation and link entries. -/
theorem C8_witness :
    ({ mentions := [], bold_depth := 0, italic_depth := 0, link_url := some "u",
       current_language := none, list_stack := [] } : FoldState).link_url = some "u" ∧
    (process_event (fun _ => none) none
        { mentions := [], bold_depth := 0, italic_depth := 0, link_url := some "u",
          current_language := none, list_stack := [] }
        { text := "x".toList, highlights := [], link_ranges := [], link_urls := [] }
        (Event.code ("ab".toList)) ⟨0, 4⟩).2.highlights =
      [(⟨1, 3⟩, Highlight.highlight ⟨false, false, true⟩)] := by
  refine ⟨rfl, ?_⟩
  have h := ((C8_code_span (fun _ => none) none
    { mentions := [], bold_depth := 0, italic_depth := 0, link_url := some "u",
      current_language := none, list_stack := [] }
    { text := "x".toList, highlights := [], link_ranges := [], link_urls := [] }
    ("ab".toList) "u" ⟨0, 4⟩).2.1 rfl).1
  rw [h]
  rfl

theorem render_code_loop_spec (prev_len clen : Nat) :
    ∀ (ts : List (Range × Nat)) (offset : Nat), offset ≤ clen →
      tokens_ok offset clen ts →
      covers_from (prev_len + offset) (prev_len + clen)
        (render_code_loop prev_len clen offset ts) ∧
      (∀ tok ∈ ts, (⟨prev_len + tok.1.start, prev_len + tok.1.stop⟩, Highlight.id tok.2) ∈
        render_code_loop prev_len clen offset ts) ∧
      (∀ p ∈ render_code_loop prev_len clen offset ts,
        p.2 = Highlight.code ∨ ∃ tok ∈ ts,
          p = (⟨prev_len + tok.1.start, prev_len + tok.1.stop⟩, Highlight.id tok.2)) := by
  intro ts
  induction ts with
  | nil =>
    intro offset hle hok
    by_cases h : offset < clen
    · refine ⟨?_, by simp, ?_⟩
      · simp only [render_code_loop, if_pos h]
        exact ⟨rfl, Nat.add_le_add_left (Nat.le_of_lt h) _, rfl⟩
      · intro p hp
        simp only [render_code_loop, if_pos h, List.mem_singleton] at hp
        exact Or.inl (by rw [hp])
    · have : offset = clen := Nat.le_antisymm hle (Nat.le_of_not_lt h)
      subst this
      refine ⟨?_, by simp, ?_⟩
      · simp only [render_code_loop, if_neg h]
        rfl
      · intro p hp
        simp only [render_code_loop, if_neg h, List.not_mem_nil] at hp
    | cons tok rest ih =>
    intro offset hle hok
    obtain ⟨h1, h2, h3, h4⟩ := hok
    obtain ⟨ihc, ihm, ihp⟩ := ih tok.1.stop h3 h4
    refine ⟨?_, ?_, ?_⟩
    · by_cases hg : offset < tok.1.start
      · simp only [render_code_loop, if_pos hg, List.singleton_append]
        exact ⟨rfl, Nat.add_le_add_left h1 _,
          rfl, Nat.add_le_add_left h2 _, ihc⟩
      · have : offset = tok.1.start := Nat.le_antisymm h1 (Nat.le_of_not_lt hg)
        simp only [render_code_loop, if_neg hg, List.nil_append]
        exact ⟨by rw [this], by rw [this]; exact Nat.add_le_add_left h2 _, ihc⟩
    · intro tk htk
      rcases List.mem_cons.mp htk with rfl | htk'
      · simp only [render_code_loop]
        exact List.mem_append_right _ (List.mem_cons_self _ _)
      · simp only [render_code_loop]
        exact List.mem_append_right _ (List.mem_cons_of_mem _ (ihm tk htk'))
    · intro p hp
      simp only [render_code_loop] at hp
      rcases List.mem_append.mp hp with hgap | hrest
      · left
        by_cases hg : offset < tok.1.start
        · rw [if_pos hg, List.mem_singleton] at hgap
          rw [hgap]
        · rw [if_neg hg] at hgap
          exact absurd hgap (List.not_mem_nil p)
      · rcases List.mem_cons.mp hrest with rfl | hrest'
        · exact Or.inr ⟨tok, List.mem_cons_self _ _, rfl⟩
        · rcases ihp p hrest' with h | ⟨tk, htk, hpe⟩
          · exact Or.inl h
          · exact Or.inr ⟨tk, List.mem_cons_of_mem _ htk, hpe⟩

/-- Claim C4: the Code-Delegation Procedure appends the code string
verbatim and emits annotations exactly covering the appended span with no
gaps and no overlaps: a syntax-id annotation over each offset-adjusted
token range and a generic-code annotation over every remaining gap; with
zero tokens and non-empty content, a single generic-code annotation spans
the whole content. -/
theorem C4_code_coverage (out : Out) (content : List Char) (language : Lang)
    (htok : tokens_ok 0 content.length (language.highlight_text content)) :
    (render_code out content language).text = out.text ++ content ∧
    (render_code out content language).highlights =
      out.highlights ++ render_code_loop out.text.length content.length 0
        (language.highlight_text content) ∧
    covers_from out.text.length (out.text.length + content.length)
      (render_code_loop out.text.length content.length 0
        (language.highlight_text content)) ∧
    (∀ tok ∈ language.highlight_text content,
      (⟨out.text.length + tok.1.start, out.text.length + tok.1.stop⟩,
        Highlight.id tok.2) ∈
        render_code_loop out.text.length content.length 0
          (language.highlight_text content)) ∧
    (∀ p ∈ render_code_loop out.text.length content.length 0
        (language.highlight_text content),
      p.2 = Highlight.code ∨ ∃ tok ∈ language.highlight_text content,
        p = (⟨out.text.length + tok.1.start, out.text.length + tok.1.stop⟩,
          Highlight.id tok.2)) ∧
    (language.highlight_text content = [] → content ≠ [] →
      render_code_loop out.text.length content.length 0
          (language.highlight_text content) =
        [(⟨out.text.length, out.text.length + content.length⟩, Highlight.code)]) := by
  have hspec := render_code_loop_spec out.text.length content.length
    (language.highlight_text content) 0 (Nat.zero_le _) htok
  rw [Nat.add_zero] at hspec
  refine ⟨rfl, rfl, hspec.1, hspec.2.1, hspec.2.2, ?_⟩
  intro hnil hne
  rw [hnil]
  have hpos : 0 < content.length := List.length_pos.mpr hne
  simp only [render_code_loop, if_pos hpos, Nat.add_zero]

/-- Witness for C4: content `"abc"` with a single token `[1,2)` tagged 7
yields code-gap, token, code-gap annotations covering `[0,3)`. -/
theorem C4_witness :
    tokens_ok 0 ("abc".toList).length
      ((⟨fun _ => [(⟨1, 2⟩, 7)]⟩ : Lang).highlight_text ("abc".toList)) ∧
    (render_code empty_out ("abc".toList) ⟨fun _ => [(⟨1, 2⟩, 7)]⟩).highlights =
      [(⟨0, 1⟩, Highlight.code), (⟨1, 2⟩, Highlight.id 7), (⟨2, 3⟩, Highlight.code)] ∧
    covers_from empty_out.text.length (empty_out.text.length + ("abc".toList).length)
      (render_code_loop empty_out.text.length (("abc".toList)).length 0
        ((⟨fun _ => [(⟨1, 2⟩, 7)]⟩ : Lang).highlight_text ("abc".toList))) :=
  ⟨by decide, by decide,
    (C4_code_coverage empty_out ("abc".toList) ⟨fun _ => [(⟨1, 2⟩, 7)]⟩ (by decide)).2.2.1⟩

theorem mention_count_append (hs hs' : List (Range × Highlight)) :
    mention_count (hs ++ hs') = mention_count hs + mention_count hs' := by
  simp [mention_count, List.filter_append]

theorem mention_count_nil : mention_count [] = 0 := rfl

theorem mention_count_cons (p : Range × Highlight) (hs : List (Range × Highlight)) :
    mention_count (p :: hs) =
      (if is_mention_kind p.2 = true then 1 else 0) + mention_count hs := by
  by_cases h : is_mention_kind p.2 = true <;>
    simp [mention_count, List.filter_cons, h, Nat.add_comm]

theorem render_code_loop_mention_count (prev_len clen : Nat) :
    ∀ (ts : List (Range × Nat)) (offset : Nat),
      mention_count (render_code_loop prev_len clen offset ts) = 0 := by
  intro ts
  induction ts with
  | nil =>
    intro offset
    by_cases h : offset < clen <;>
      simp [render_code_loop, h, mention_count, is_mention_kind]
  | cons tok rest ih =>
    intro offset
    by_cases h : offset < tok.1.start <;>
      simp [render_code_loop, h, mention_count_append, mention_count_cons,
        mention_count_nil, is_mention_kind, ih]

theorem push_or_extend_mention_count (hs : List (Range × Highlight)) (a b : Nat)
    (s : HighlightStyle) :
    mention_count (push_or_extend hs a b s) = mention_count hs := by
  rcases List.eq_nil_or_concat hs with rfl | ⟨ys, y, rfl⟩
  · simp [push_or_extend, mention_count, is_mention_kind]
  · simp only [List.concat_eq_append, push_or_extend, List.getLast?_concat,
      List.dropLast_concat]
    split
    · rename_i hcond
      rw [mention_count_append, mention_count_append]
      simp [mention_count, List.filter, hcond.2, is_mention_kind]
    · rw [mention_count_append]
      simp [mention_count, List.filter, is_mention_kind]

theorem splice_blocked (prev_len : Nat) (source_range : Range) (m : Mention)
    (hnc : ¬ source_range.contains_inclusive m.range) :
    ∀ (q1 q2 : List Mention) (hs : List (Range × Highlight)),
      ∃ k ≤ q1.length,
        (splice_mentions prev_len source_range (q1 ++ m :: q2) hs).1 =
          q1.drop k ++ m :: q2 ∧
        mention_count (splice_mentions prev_len source_range (q1 ++ m :: q2) hs).2 =
          mention_count hs + k := by
  intro q1
  induction q1 with
  | nil =>
    intro q2 hs
    exact ⟨0, Nat.le_refl _, by simp [splice_mentions, if_neg hnc], by
      simp [splice_mentions, if_neg hnc]⟩
  | cons a q1' ih =>
    intro q2 hs
    by_cases hc : source_range.contains_inclusive a.range
    · obtain ⟨k, hk, hm, hcnt⟩ := ih q2
        (hs ++ [(⟨prev_len + a.range.start - source_range.start,
                 prev_len + a.range.stop - source_range.start⟩, mention_highlight a)])
      refine ⟨k + 1, Nat.succ_le_succ hk, ?_, ?_⟩
      · simpa [splice_mentions, if_pos hc] using hm
      · rw [List.cons_append]
        simp only [splice_mentions, if_pos hc]
        rw [hcnt, mention_count_append]
        simp [mention_count, List.filter, mention_highlight_kind a]
        omega
    · exact ⟨0, Nat.zero_le _, by simp [splice_mentions, if_neg hc], by
        simp [splice_mentions, if_neg hc]⟩

theorem splice_decomp (prev_len : Nat) (source_range : Range) :
    ∀ (q : List Mention) (hs : List (Range × Highlight)),
      ∃ tail, (splice_mentions prev_len source_range q hs).2 = hs ++ tail ∧
        ∀ p ∈ tail, is_mention_kind p.2 = true := by
  intro q
  induction q with
  | nil => intro hs; exact ⟨[], by simp [splice_mentions], by simp⟩
  | cons m rest ih =>
    intro hs
    by_cases hc : source_range.contains_inclusive m.range
    · obtain ⟨tail, heq, hk⟩ := ih
        (hs ++ [(⟨prev_len + m.range.start - source_range.start,
                 prev_len + m.range.stop - source_range.start⟩, mention_highlight m)])
      refine ⟨(⟨prev_len + m.range.start - source_range.start,
               prev_len + m.range.stop - source_range.start⟩,
               mention_highlight m) :: tail, ?_, ?_⟩
      · simp only [splice_mentions, if_pos hc, heq, List.append_assoc,
          List.singleton_append]
      · intro p hp
        rcases List.mem_cons.mp hp with rfl | hp'
        · exact mention_highlight_kind m
        · exact hk p hp'
    · exact ⟨[], by simp [splice_mentions, if_neg hc], by simp⟩

theorem splice_suffix (prev_len : Nat) (source_range : Range) :
    ∀ (q : List Mention) (hs : List (Range × Highlight)),
      (splice_mentions prev_len source_range q hs).1 <:+ q := by
  intro q
  induction q with
  | nil => intro hs; simp [splice_mentions]
  | cons m rest ih =>
    intro hs
    by_cases hc : source_range.contains_inclusive m.range
    · simp only [splice_mentions, if_pos hc]
      exact (ih _).trans (List.suffix_cons m rest)
    · simp [splice_mentions, if_neg hc]

theorem push_or_extend_of_last_kind (hs : List (Range × Highlight)) (a b : Nat)
    (s : HighlightStyle) (y : Range × Highlight) (hl : hs.getLast? = some y)
    (hk : is_mention_kind y.2 = true) :
    push_or_extend hs a b s = hs ++ [(⟨a, b⟩, Highlight.highlight s)] := by
  have hne : ¬ (y.1.stop = a ∧ y.2 = Highlight.highlight s) := by
    rintro ⟨-, h2⟩
    rw [h2] at hk
    simp [is_mention_kind] at hk
  simp only [push_or_extend, hl, if_neg hne]

theorem process_event_blocked (registry : String → Option Lang) (language : Option Lang)
    (st : FoldState) (out : Out) (event : Event) (source_range : Range)
    (m : Mention) (q1 q2 : List Mention)
    (hq : st.mentions = q1 ++ m :: q2)
    (hnc : is_text event = true → ¬ source_range.contains_inclusive m.range) :
    ∃ k ≤ q1.length,
      (process_event registry language st out event source_range).1.mentions =
        q1.drop k ++ m :: q2 ∧
      mention_count (process_event registry language st out event source_range).2.highlights =
        mention_count out.highlights + k := by
  cases event with
  | text t =>
    have hm := hnc rfl
    simp only [process_event, handle_text]
    cases hcl : st.current_language with
    | some l =>
      refine ⟨0, Nat.zero_le _, by simpa using hq, ?_⟩
      simp [render_code, mention_count_append, render_code_loop_mention_count]
    | none =>
      rw [hq]
      obtain ⟨k, hk, hmen, hcnt⟩ := splice_blocked out.text.length source_range m hm
        q1 q2 out.highlights
      refine ⟨k, hk, by simpa using hmen, ?_⟩
      simp only []
      split
      · simpa using hcnt
      · rw [push_or_extend_mention_count]
        simpa using hcnt
  | code t =>
    refine ⟨0, Nat.zero_le _, by simpa using hq, ?_⟩
    simp only [process_event, handle_code_event]
    cases st.link_url with
    | some url =>
      simp [mention_count_append, mention_count_cons, mention_count_nil, is_mention_kind]
    | none => simp
  | start tag =>
    cases tag <;>
      first
        | exact ⟨0, Nat.zero_le _, by simpa [process_event, handle_start] using hq,
            by simp [process_event, handle_start]⟩
        | (refine ⟨0, Nat.zero_le _, ?_, ?_⟩ <;>
            (simp only [process_event, handle_start, handle_item]
             cases hls : st.list_stack with
             | nil => simpa using hq
             | cons frame rest =>
               obtain ⟨num, b⟩ := frame
               cases num <;> simpa using hq))
  | stop tag =>
    cases tag <;>
      exact ⟨0, Nat.zero_le _, by simpa [process_event, handle_stop] using hq,
        by simp [process_event, handle_stop]⟩
  | hardBreak =>
    exact ⟨0, Nat.zero_le _, by simpa [process_event] using hq, by simp [process_event]⟩
  | softBreak =>
    exact ⟨0, Nat.zero_le _, by simpa [process_event] using hq, by simp [process_event]⟩
  | other =>
    exact ⟨0, Nat.zero_le _, by simpa [process_event] using hq, by simp [process_event]⟩

theorem render_markdown_mut_blocked (registry : String → Option Lang)
    (language : Option Lang) (m : Mention) :
    ∀ (events : List (Event × Range)),
      (∀ ev ∈ events, is_text ev.1 = true → ¬ ev.2.contains_inclusive m.range) →
      ∀ (st : FoldState) (out : Out) (q1 q2 : List Mention),
        st.mentions = q1 ++ m :: q2 →
        ∃ k ≤ q1.length,
          (render_markdown_mut registry language events st out).1.mentions =
            q1.drop k ++ m :: q2 ∧
          mention_count (render_markdown_mut registry language events st out).2.highlights =
            mention_count out.highlights + k := by
  intro events
  induction events with
  | nil =>
    intro hnc st out q1 q2 hq
    exact ⟨0, Nat.zero_le _, by simpa [render_markdown_mut] using hq,
      by simp [render_markdown_mut]⟩
  | cons ev rest ih =>
    intro hnc st out q1 q2 hq
    obtain ⟨k1, hk1, hm1, hc1⟩ := process_event_blocked registry language st out ev.1 ev.2
      m q1 q2 hq (hnc ev (List.mem_cons_self _ _))
    obtain ⟨k2, hk2, hm2, hc2⟩ := ih
      (fun e he ht => hnc e (List.mem_cons_of_mem _ he) ht)
      (process_event registry language st out ev.1 ev.2).1
      (process_event registry language st out ev.1 ev.2).2
      (q1.drop k1) q2 hm1
    refine ⟨k1 + k2, ?_, ?_, ?_⟩
    · have := List.length_drop k1 q1 ▸ hk2
      omega
    · simp only [render_markdown_mut]
      rw [hm2, List.drop_drop]
    · simp only [render_markdown_mut]
      rw [hc2, hc1, Nat.add_assoc]

/-- Claim C10: the mention queue is consumed strictly from the front; a
mention whose source range is contained in no text event's source range is
never consumed, it and every mention after it stay in the queue to the
end, and no annotation is ever emitted for them: the number of new
mention/self-mention annotations is bounded by the number of queue entries
before the blocking mention. -/
theorem C10_blocking (registry : String → Option Lang) (language : Option Lang)
    (events : List (Event × Range)) (st : FoldState) (out : Out)
    (m : Mention) (q1 q2 : List Mention)
    (hq : st.mentions = q1 ++ m :: q2)
    (hnc : ∀ ev ∈ events, is_text ev.1 = true → ¬ ev.2.contains_inclusive m.range) :
    m ∈ (render_markdown_mut registry language events st out).1.mentions ∧
    (∀ m' ∈ q2, m' ∈ (render_markdown_mut registry language events st out).1.mentions) ∧
    mention_count (render_markdown_mut registry language events st out).2.highlights ≤
      mention_count out.highlights + q1.length := by
  obtain ⟨k, hk, hm, hc⟩ :=
    render_markdown_mut_blocked registry language m events hnc st out q1 q2 hq
  refine ⟨?_, ?_, ?_⟩
  · rw [hm]; exact List.mem_append_right _ (List.mem_cons_self _ _)
  · intro m' hm'
    rw [hm]
    exact List.mem_append_right _ (List.mem_cons_of_mem _ hm')
  · rw [hc]; exact Nat.add_le_add_left hk _

/-- Witness for C10: a straddling mention `[2,9)` followed by `[10,12)`;
neither is consumed over a text event `[0,4)` and no annotation appears. -/
theorem C10_witness :
    (([⟨⟨2, 9⟩, false⟩] ++ ⟨⟨2, 9⟩, false⟩ :: [] : List Mention) =
        [⟨⟨2, 9⟩, false⟩, ⟨⟨2, 9⟩, false⟩]) ∧
    (⟨⟨2, 9⟩, false⟩ : Mention) ∈
      (render_markdown_mut (fun _ => none) none [(Event.text ("abcd".toList), ⟨0, 4⟩)]
        { mentions := [⟨⟨2, 9⟩, false⟩, ⟨⟨2, 9⟩, false⟩], bold_depth := 0,
          italic_depth := 0, link_url := none, current_language := none,
          list_stack := [] } empty_out).1.mentions ∧
    mention_count
        (render_markdown_mut (fun _ => none) none [(Event.text ("abcd".toList), ⟨0, 4⟩)]
          { mentions := [⟨⟨2, 9⟩, false⟩, ⟨⟨2, 9⟩, false⟩], bold_depth := 0,
            italic_depth := 0, link_url := none, current_language := none,
            list_stack := [] } empty_out).2.highlights ≤
      mention_count empty_out.highlights + 1 := by
  have h := C10_blocking (fun _ => none) none [(Event.text ("abcd".toList), ⟨0, 4⟩)]
    { mentions := [⟨⟨2, 9⟩, false⟩, ⟨⟨2, 9⟩, false⟩], bold_depth := 0,
      italic_depth := 0, link_url := none, current_language := none,
      list_stack := [] } empty_out ⟨⟨2, 9⟩, false⟩ [⟨⟨2, 9⟩, false⟩] []
    rfl (by decide)
  exact ⟨rfl, h.1, h.2.2⟩

/-- Claim C2 (amended): (a) when a non-code text event is processed and the
FRONT mention of the queue is inclusively contained in the event's source
range, it is popped and exactly one mention/self-mention annotation (per
its flag) is emitted directly after the pre-existing highlights, over
`[mention.start + delta, mention.end + delta)` with
`delta = destination_start - source_event_start`, whose length equals the
mention's source length; (b) a mention contained in no single text event's
source range is never consumed and never emits an annotation — but (against
the original claim) it also blocks every mention behind it in the queue,
so containment alone does not guarantee emission (see the
counterexample). -/
theorem C2_mention_splice (registry : String → Option Lang) (language : Option Lang)
    (events : List (Event × Range)) (st : FoldState) (out : Out) (t : List Char)
    (source_range : Range) (m : Mention) (ms q1 q2 : List Mention) :
    (st.current_language = none → st.mentions = m :: ms →
      source_range.contains_inclusive m.range →
      (∃ hs', (process_event registry language st out (Event.text t) source_range).2.highlights =
          (out.highlights ++
            [(⟨out.text.length + m.range.start - source_range.start,
               out.text.length + m.range.stop - source_range.start⟩,
              mention_highlight m)]) ++ hs') ∧
      (process_event registry language st out (Event.text t) source_range).1.mentions <:+ ms ∧
      (out.text.length + m.range.stop - source_range.start) -
          (out.text.length + m.range.start - source_range.start) =
        m.range.stop - m.range.start) ∧
    (st.mentions = q1 ++ m :: q2 →
      (∀ ev ∈ events, is_text ev.1 = true → ¬ ev.2.contains_inclusive m.range) →
      ∃ k ≤ q1.length,
        (render_markdown_mut registry language events st out).1.mentions =
          q1.drop k ++ m :: q2 ∧
        mention_count (render_markdown_mut registry language events st out).2.highlights =
          mention_count out.highlights + k) := by
  constructor
  · intro hlang hmen hc
    simp only [process_event, handle_text, hlang, hmen]
    have hsp : splice_mentions out.text.length source_range (m :: ms) out.highlights =
        splice_mentions out.text.length source_range ms
          (out.highlights ++
            [(⟨out.text.length + m.range.start - source_range.start,
               out.text.length + m.range.stop - source_range.start⟩,
              mention_highlight m)]) := by
      simp only [splice_mentions, if_pos hc]
    obtain ⟨tail, htail, hkinds⟩ := splice_decomp out.text.length source_range ms
      (out.highlights ++
        [(⟨out.text.length + m.range.start - source_range.start,
           out.text.length + m.range.stop - source_range.start⟩,
          mention_highlight m)])
    refine ⟨?_, ?_, ?_⟩
    · rw [hsp, htail]
      by_cases hd : effective_style st = HighlightStyle.default
      · rw [if_pos hd]
        exact ⟨tail, rfl⟩
      · rw [if_neg hd]
        rcases List.eq_nil_or_concat tail with rfl | ⟨ts, tl, rfl⟩
        · rw [List.append_nil, push_or_extend_of_last_kind _ _ _ _ _
            (List.getLast?_concat _) (mention_highlight_kind m)]
          exact ⟨[(⟨out.text.length, (out.text ++ t).length⟩,
            Highlight.highlight (effective_style st))], rfl⟩
        · simp only [List.concat_eq_append]
          rw [push_or_extend_of_last_kind _ _ _ _ tl
            (by rw [← List.append_assoc, List.getLast?_concat])
            (hkinds tl (by simp [List.concat_eq_append]))]
          exact ⟨(ts ++ [tl]) ++ [(⟨out.text.length, (out.text ++ t).length⟩,
            Highlight.highlight (effective_style st))], by simp [List.append_assoc]⟩
    · simp only [hsp]
      exact splice_suffix _ _ _ _
    · have h1 := hc.1
      omega
  · intro hq hnc
    exact render_markdown_mut_blocked registry language m events hnc st out q1 q2 hq

/-- Counterexample to C2 as stated: the mention `[10,12)` is fully
contained in the second text event's source range `[10,14)`, yet no
annotation at all is emitted, because the straddling mention `[3,11)`
ahead of it in the queue is never consumed and blocks the front of the
queue. -/
theorem C2_counterexample :
    (⟨10, 14⟩ : Range).contains_inclusive (⟨10, 12⟩ : Range) ∧
    (render_markdown
        [(Event.text ("abcd".toList), ⟨0, 4⟩), (Event.text ("efgh".toList), ⟨10, 14⟩)]
        [⟨⟨3, 11⟩, false⟩, ⟨⟨10, 12⟩, false⟩] (fun _ => none) none).highlights = [] :=
  ⟨by decide, by decide⟩

/-- Witness for C2: front mention `[1,2)` contained in the text event
`[0,2)` is spliced with delta 0; the straddling mention `[5,9)` behind it
blocks consumption thereafter. -/
theorem C2_witness :
    ({ mentions := [⟨⟨1, 2⟩, true⟩, ⟨⟨5, 9⟩, false⟩], bold_depth := 0,
       italic_depth := 0, link_url := none, current_language := none,
       list_stack := [] } : FoldState).current_language = none ∧
    (⟨0, 2⟩ : Range).contains_inclusive (⟨1, 2⟩ : Range) ∧
    (∃ hs', (process_event (fun _ => none) none
        { mentions := [⟨⟨1, 2⟩, true⟩, ⟨⟨5, 9⟩, false⟩], bold_depth := 0,
          italic_depth := 0, link_url := none, current_language := none,
          list_stack := [] }
        empty_out (Event.text ("xy".toList)) ⟨0, 2⟩).2.highlights =
      (empty_out.highlights ++
        [(⟨empty_out.text.length + 1 - 0, empty_out.text.length + 2 - 0⟩,
          mention_highlight ⟨⟨1, 2⟩, true⟩)]) ++ hs') ∧
    (process_event (fun _ => none) none
        { mentions := [⟨⟨1, 2⟩, true⟩, ⟨⟨5, 9⟩, false⟩], bold_depth := 0,
          italic_depth := 0, link_url := none, current_language := none,
          list_stack := [] }
        empty_out (Event.text ("xy".toList)) ⟨0, 2⟩).1.mentions <:+
      [⟨⟨5, 9⟩, false⟩] := by
  have h := C2_mention_splice (fun _ => none) none [] 
    { mentions := [⟨⟨1, 2⟩, true⟩, ⟨⟨5, 9⟩, false⟩], bold_depth := 0,
      italic_depth := 0, link_url := none, current_language := none,
      list_stack := [] }
    empty_out ("xy".toList) ⟨0, 2⟩ ⟨⟨1, 2⟩, true⟩ [⟨⟨5, 9⟩, false⟩] [] []
  obtain ⟨ha, -⟩ := h
  obtain ⟨he, hsfx, -⟩ := ha rfl rfl (by decide)
  exact ⟨rfl, by decide, he, hsfx⟩

theorem hl_chain_mono (lo lo' : Nat) (hs : List (Range × Highlight))
    (hle : lo' ≤ lo) (h : hl_chain lo hs) : hl_chain lo' hs := by
  cases hs with
  | nil => trivial
  | cons p rest => exact ⟨Nat.le_trans hle h.1, h.2.1, h.2.2⟩

theorem hl_ub_mono (hs : List (Range × Highlight)) (b b' : Nat)
    (h : hl_ub hs b) (hle : b ≤ b') : hl_ub hs b' :=
  fun p hp => Nat.le_trans (h p hp) hle

theorem hl_ub_append (hs hs' : List (Range × Highlight)) (b : Nat)
    (h : hl_ub hs b) (h' : hl_ub hs' b) : hl_ub (hs ++ hs') b := by
  intro p hp
  rcases List.mem_append.mp hp with hp' | hp'
  · exact h p hp'
  · exact h' p hp'

theorem hl_chain_append (hs hs' : List (Range × Highlight)) :
    ∀ (lo mid : Nat), hl_chain lo hs → hl_ub hs mid → lo ≤ mid →
      hl_chain mid hs' → hl_chain lo (hs ++ hs') := by
  induction hs with
  | nil =>
    intro lo mid h hub hle h'
    exact hl_chain_mono mid lo hs' hle h'
  | cons p rest ih =>
    intro lo mid h hub hle h'
    exact ⟨h.1, h.2.1,
      ih p.1.stop mid h.2.2 (fun q hq => hub q (List.mem_cons_of_mem _ hq))
        (hub p (List.mem_cons_self _ _)) h'⟩

theorem covers_from_le (hs : List (Range × Highlight)) :
    ∀ (a b : Nat), covers_from a b hs → a ≤ b := by
  induction hs with
  | nil => intro a b h; exact Nat.le_of_eq h
  | cons p rest ih =>
    intro a b h
    exact Nat.le_trans h.2.1 (ih p.1.stop b h.2.2)

theorem covers_from_chain (hs : List (Range × Highlight)) :
    ∀ (a b : Nat), covers_from a b hs → hl_chain a hs := by
  induction hs with
  | nil => intro a b h; trivial
  | cons p rest ih =>
    intro a b h
    exact ⟨Nat.le_of_eq h.1.symm, h.1 ▸ h.2.1, ih p.1.stop b h.2.2⟩

theorem covers_from_ub (hs : List (Range × Highlight)) :
    ∀ (a b : Nat), covers_from a b hs → hl_ub hs b := by
  induction hs with
  | nil => intro a b h p hp; exact absurd hp (List.not_mem_nil p)
  | cons p rest ih =>
    intro a b h q hq
    rcases List.mem_cons.mp hq with rfl | hq'
    · exact covers_from_le rest q.1.stop b h.2.2
    · exact ih p.1.stop b h.2.2 q hq'

theorem hl_chain_extend_last (hs : List (Range × Highlight)) :
    ∀ (lo e : Nat) (p : Range × Highlight) (h' : Highlight),
      hl_chain lo (hs ++ [p]) → p.1.start ≤ e →
      hl_chain lo (hs ++ [(⟨p.1.start, e⟩, h')]) := by
  induction hs with
  | nil =>
    intro lo e p h' h he
    exact ⟨h.1, he, trivial⟩
  | cons q rest ih =>
    intro lo e p h' h he
    exact ⟨h.1, h.2.1, ih q.1.stop e p h' h.2.2 he⟩

theorem hl_chain_wf (hs : List (Range × Highlight)) :
    ∀ (lo : Nat), hl_chain lo hs → ∀ p ∈ hs, p.1.start ≤ p.1.stop := by
  induction hs with
  | nil => intro lo h p hp; exact absurd hp (List.not_mem_nil p)
  | cons q rest ih =>
    intro lo h p hp
    rcases List.mem_cons.mp hp with rfl | hp'
    · exact h.2.1
    · exact ih q.1.stop h.2.2 p hp'

theorem push_or_extend_inv (hs : List (Range × Highlight)) (a b : Nat)
    (s : HighlightStyle) (hch : hl_chain 0 hs) (hub : hl_ub hs a) (hab : a ≤ b) :
    hl_chain 0 (push_or_extend hs a b s) ∧ hl_ub (push_or_extend hs a b s) b := by
  rcases List.eq_nil_or_concat hs with rfl | ⟨ys, y, rfl⟩
  · constructor
    · simp only [push_or_extend, List.getLast?_nil, List.nil_append]
      exact ⟨Nat.zero_le _, hab, trivial⟩
    · simp only [push_or_extend, List.getLast?_nil, List.nil_append]
      intro p hp
      rw [List.mem_singleton.mp hp]
  · simp only [List.concat_eq_append] at *
    simp only [push_or_extend, List.getLast?_concat, List.dropLast_concat]
    split
    · rename_i hcond
      constructor
      · refine hl_chain_extend_last ys 0 b y y.2 hch ?_
        have hy : y ∈ ys ++ [y] := List.mem_append_right _ (List.mem_singleton.mpr rfl)
        exact Nat.le_trans (hl_chain_wf _ 0 hch y hy) (Nat.le_trans (hub y hy) hab)
      · intro p hp
        rcases List.mem_append.mp hp with hp' | hp'
        · exact Nat.le_trans (hub p (List.mem_append_left _ hp')) hab
        · rw [List.mem_singleton.mp hp']
    · constructor
      · refine hl_chain_append (ys ++ [y]) _ 0 a hch hub (Nat.zero_le _) ?_
        exact ⟨Nat.le_refl _, hab, trivial⟩
      · refine hl_ub_append _ _ _ (hl_ub_mono _ _ _ hub hab) ?_
        intro p hp
        rw [List.mem_singleton.mp hp]

theorem np_emit_mono (text : List Char) (n : Nat) (b : Bool) :
    text.length ≤ (np_emit text n b).length := by
  simp only [np_emit]
  split_ifs <;>
    (simp only [List.length_append, List.length_replicate, List.length_cons,
      List.length_nil]
     omega)

theorem new_paragraph_mono (text : List Char) (ls : List (Option Nat × Bool)) :
    text.length ≤ (new_paragraph text ls).1.length := by
  cases ls with
  | nil => exact np_emit_mono text 0 false
  | cons frame rest =>
    simp only [new_paragraph]
    split
    · exact np_emit_mono text (rest.length + 1) true
    · exact Nat.le_refl _

theorem ensure_trailing_newline_mono (text : List Char) :
    text.length ≤ (ensure_trailing_newline text).length := by
  simp only [ensure_trailing_newline]
  split <;> simp

theorem process_event_inv (registry : String → Option Lang) (language : Option Lang)
    (st : FoldState) (out : Out) (event : Event) (source_range : Range)
    (hreg : ∀ name l, registry name = some l → tok_wf l)
    (hdef : ∀ l, language = some l → tok_wf l)
    (hm : st.mentions = [])
    (hlo : ∀ l, st.current_language = some l → tok_wf l)
    (hch : hl_chain 0 out.highlights)
    (hub : hl_ub out.highlights out.text.length) :
    (process_event registry language st out event source_range).1.mentions = [] ∧
    (∀ l, (process_event registry language st out event source_range).1.current_language =
      some l → tok_wf l) ∧
    hl_chain 0 (process_event registry language st out event source_range).2.highlights ∧
    hl_ub (process_event registry language st out event source_range).2.highlights
      (process_event registry language st out event source_range).2.text.length := by
  cases event with
  | text t =>
    cases hcl : st.current_language with
    | some l =>
      have htok := hlo l hcl t
      have hspec := render_code_loop_spec out.text.length t.length
        (l.highlight_text t) 0 (Nat.zero_le _) htok
      rw [Nat.add_zero] at hspec
      have hchl := covers_from_chain _ _ _ hspec.1
      have hubl := covers_from_ub _ _ _ hspec.1
      refine ⟨?_, ?_, ?_, ?_⟩ <;> simp only [process_event, handle_text, hcl]
      · exact hm
      · exact fun l' h' => hlo l' (hcl ▸ h')
      · exact hl_chain_append _ _ 0 out.text.length hch hub (Nat.zero_le _) hchl
      · simp only [render_code, List.length_append]
        exact hl_ub_append _ _ _ (hl_ub_mono _ _ _ hub (Nat.le_add_right _ _)) hubl
    | none =>
      have he := handle_text_simple st out t source_range hcl hm
      have hpl : out.text.length ≤ (out.text ++ t).length := by
        rw [List.length_append]; exact Nat.le_add_right _ _
      refine ⟨?_, ?_, ?_, ?_⟩ <;> simp only [process_event, he]
      · intro l' h'
        exact hlo l' (hcl ▸ h')
      · split
        · exact hch
        · exact (push_or_extend_inv out.highlights out.text.length
            (out.text ++ t).length (effective_style st) hch hub hpl).1
      · split
        · exact hl_ub_mono _ _ _ hub hpl
        · exact (push_or_extend_inv out.highlights out.text.length
            (out.text ++ t).length (effective_style st) hch hub hpl).2
  | code t =>
    have hpl : out.text.length ≤ (out.text ++ t).length := by
      rw [List.length_append]; exact Nat.le_add_right _ _
    refine ⟨hm, hlo, ?_, ?_⟩ <;> simp only [process_event, handle_code_event]
    · cases st.link_url with
      | some url =>
        refine hl_chain_append _ _ 0 out.text.length hch hub (Nat.zero_le _) ?_
        exact ⟨Nat.le_refl _, hpl, trivial⟩
      | none => exact hch
    · cases st.link_url with
      | some url =>
        refine hl_ub_append _ _ _ (hl_ub_mono _ _ _ hub hpl) ?_
        intro p hp
        rw [List.mem_singleton.mp hp]
      | none => exact hl_ub_mono _ _ _ hub hpl
  | start tag =>
    cases tag with
    | paragraph =>
      exact ⟨hm, hlo, hch,
        hl_ub_mono _ _ _ hub (new_paragraph_mono out.text st.list_stack)⟩
    | heading =>
      exact ⟨hm, hlo, hch,
        hl_ub_mono _ _ _ hub (new_paragraph_mono out.text st.list_stack)⟩
    | codeBlock kind =>
      refine ⟨hm, ?_, hch,
        hl_ub_mono _ _ _ hub (new_paragraph_mono out.text st.list_stack)⟩
      intro l h
      cases kind with
      | fenced name => exact hreg name l h
      | indented => exact hdef l h
    | emphasis => exact ⟨hm, hlo, hch, hub⟩
    | strong => exact ⟨hm, hlo, hch, hub⟩
    | link url => exact ⟨hm, hlo, hch, hub⟩
    | list number => exact ⟨hm, hlo, hch, hub⟩
    | other => exact ⟨hm, hlo, hch, hub⟩
    | item =>
      simp only [process_event, handle_start, handle_item]
      cases hls : st.list_stack with
      | nil => exact ⟨hm, hlo, hch, hub⟩
      | cons frame rest =>
        obtain ⟨num, b⟩ := frame
        have hmono : out.text.length ≤
            (ensure_trailing_newline out.text ++
              List.replicate (2 * (((num, b) :: rest).length - 1)) ' ').length := by
          rw [List.length_append]
          exact Nat.le_trans (ensure_trailing_newline_mono out.text) (Nat.le_add_right _ _)
        cases num with
        | some n =>
          refine ⟨hm, hlo, hch, ?_⟩
          simp only [List.length_append]
          refine hl_ub_mono _ _ _ hub ?_
          rw [List.length_append] at hmono
          omega
        | none =>
          refine ⟨hm, hlo, hch, ?_⟩
          simp only [List.length_append]
          refine hl_ub_mono _ _ _ hub ?_
          rw [List.length_append] at hmono
          omega
  | stop tag =>
    cases tag with
    | heading => exact ⟨hm, hlo, hch, hub⟩
    | codeBlock kind => exact ⟨hm, fun l h => by simp [process_event, handle_stop] at h, hch, hub⟩
    | emphasis => exact ⟨hm, hlo, hch, hub⟩
    | strong => exact ⟨hm, hlo, hch, hub⟩
    | link url => exact ⟨hm, hlo, hch, hub⟩
    | list number => exact ⟨hm, hlo, hch, hub⟩
    | paragraph => exact ⟨hm, hlo, hch, hub⟩
    | item => exact ⟨hm, hlo, hch, hub⟩
    | other => exact ⟨hm, hlo, hch, hub⟩
  | hardBreak =>
    refine ⟨hm, hlo, hch, ?_⟩
    simp only [process_event, List.length_append]
    exact hl_ub_mono _ _ _ hub (Nat.le_add_right _ _)
  | softBreak =>
    refine ⟨hm, hlo, hch, ?_⟩
    simp only [process_event, List.length_append]
    exact hl_ub_mono _ _ _ hub (Nat.le_add_right _ _)
  | other => exact ⟨hm, hlo, hch, hub⟩

theorem render_markdown_mut_inv (registry : String → Option Lang)
    (language : Option Lang)
    (hreg : ∀ name l, registry name = some l → tok_wf l)
    (hdef : ∀ l, language = some l → tok_wf l) :
    ∀ (events : List (Event × Range)) (st : FoldState) (out : Out),
      st.mentions = [] →
      (∀ l, st.current_language = some l → tok_wf l) →
      hl_chain 0 out.highlights →
      hl_ub out.highlights out.text.length →
      hl_chain 0 (render_markdown_mut registry language events st out).2.highlights ∧
      hl_ub (render_markdown_mut registry language events st out).2.highlights
        (render_markdown_mut registry language events st out).2.text.length := by
  intro events
  induction events with
  | nil => intro st out hm hlo hch hub; exact ⟨hch, hub⟩
  | cons ev rest ih =>
    intro st out hm hlo hch hub
    obtain ⟨hm', hlo', hch', hub'⟩ := process_event_inv registry language st out
      ev.1 ev.2 hreg hdef hm hlo hch hub
    simp only [render_markdown_mut]
    exact ih _ _ hm' hlo' hch' hub'

/-- Claim C1 (amended): with an EMPTY mention queue and well-behaved
tokenizers (ascending, non-overlapping, in-bounds tokens), the highlight
list built by the fold is sorted ascending by start, pairwise
non-overlapping and well formed, with every range inside the bounds of the
text as it stands BEFORE the final trim; `render_markdown` returns exactly
that list.  The original claim is false both for non-empty mention queues
(mention annotations are pushed before the styled-run annotation that
covers them) and for the trim (a code block's trailing newline is covered
by an annotation and then trimmed away); see the counterexample. -/
theorem C1_highlights_invariant (events : List (Event × Range))
    (registry : String → Option Lang) (language : Option Lang)
    (hreg : ∀ name l, registry name = some l → tok_wf l)
    (hdef : ∀ l, language = some l → tok_wf l) :
    (render_markdown events [] registry language).highlights =
      (render_markdown_mut registry language events (init_state []) empty_out).2.highlights ∧
    hl_chain 0
      (render_markdown_mut registry language events (init_state []) empty_out).2.highlights ∧
    hl_ub (render_markdown_mut registry language events (init_state []) empty_out).2.highlights
      (render_markdown_mut registry language events (init_state []) empty_out).2.text.length := by
  have h := render_markdown_mut_inv registry language hreg hdef events (init_state [])
    empty_out rfl (fun l hl => by simp [init_state] at hl) trivial
    (fun p hp => absurd hp (List.not_mem_nil p))
  exact ⟨rfl, h.1, h.2⟩

/-- Counterexample to C1 as stated.  First input (markdown `**a @u**` with
a mention over `@u`): the mention annotation `[2,4)` is pushed before the
bold annotation `[0,4)`, so the final list is neither sorted by start nor
non-overlapping.  Second input (an indented code block `"a\n"` with a
default language whose tokenizer returns no tokens): a generic-code
annotation covers the trailing newline, the final trim drops that newline,
and the annotation ends past the end of the final text. -/
theorem C1_counterexample :
    ¬ hl_chain 0 (render_markdown
        [(Event.start Tag.paragraph, ⟨0, 8⟩), (Event.start Tag.strong, ⟨0, 8⟩),
         (Event.text ("a @u".toList), ⟨2, 6⟩), (Event.stop Tag.strong, ⟨0, 8⟩),
         (Event.stop Tag.paragraph, ⟨0, 8⟩)]
        [⟨⟨4, 6⟩, false⟩] (fun _ => none) none).highlights ∧
    ¬ hl_ub (render_markdown
        [(Event.start (Tag.codeBlock CodeBlockKind.indented), ⟨0, 6⟩),
         (Event.text ("a\n".toList), ⟨4, 6⟩),
         (Event.stop (Tag.codeBlock CodeBlockKind.indented), ⟨0, 6⟩)]
        [] (fun _ => none) (some ⟨fun _ => []⟩)).highlights
      (render_markdown
        [(Event.start (Tag.codeBlock CodeBlockKind.indented), ⟨0, 6⟩),
         (Event.text ("a\n".toList), ⟨4, 6⟩),
         (Event.stop (Tag.codeBlock CodeBlockKind.indented), ⟨0, 6⟩)]
        [] (fun _ => none) (some ⟨fun _ => []⟩)).text.length :=
  ⟨by decide, by decide⟩

/-- Witness for C1 at a concrete input: a bold text run with an empty
mention queue and an always-failing registry. -/
theorem C1_witness :
    (∀ (name : String) (l : Lang),
      ((fun _ => none) : String → Option Lang) name = some l → tok_wf l) ∧
    (∀ l : Lang, (none : Option Lang) = some l → tok_wf l) ∧
    hl_chain 0 (render_markdown_mut (fun _ => none) none
      [(Event.start Tag.strong, ⟨0, 8⟩), (Event.text ("ab".toList), ⟨2, 4⟩)]
      (init_state []) empty_out).2.highlights ∧
    hl_ub (render_markdown_mut (fun _ => none) none
        [(Event.start Tag.strong, ⟨0, 8⟩), (Event.text ("ab".toList), ⟨2, 4⟩)]
        (init_state []) empty_out).2.highlights
      (render_markdown_mut (fun _ => none) none
        [(Event.start Tag.strong, ⟨0, 8⟩), (Event.text ("ab".toList), ⟨2, 4⟩)]
        (init_state []) empty_out).2.text.length := by
  have h := C1_highlights_invariant
    [(Event.start Tag.strong, ⟨0, 8⟩), (Event.text ("ab".toList), ⟨2, 4⟩)]
    (fun _ => none) none (fun name l hl => Option.noConfusion hl)
    (fun l hl => Option.noConfusion hl)
  exact ⟨fun name l hl => Option.noConfusion hl, fun l hl => Option.noConfusion hl,
    h.2.1, h.2.2⟩
